import Mathlib

/-!
Verification of the slpkg extraction engine (src/unpack/mod.rs) against its
specification.  The Rust code is shallowly embedded: paths become lists of
components, the filesystem becomes an association list from paths to nodes,
and the fallible functions return an `Except` value paired with the
filesystem state they leave behind.  External collaborators (the gzip
decompressor and the JSON pretty-printer) are passed in as function
parameters, and the zip crate's entry-name sanitizer is modelled from its
documented contract.
-/

set_option autoImplicit false

namespace Slpkg

/-- A path component (one file or directory name), as a list of characters. -/
abbrev Name := List Char

/-- Model of a Rust `PathBuf`: an absolute/relative flag plus the list of
normal components.  `⟨true, [etc, passwd]⟩` models `/etc/passwd`;
`⟨false, []⟩` models the empty path. -/
structure Path where
  absolute : Bool
  components : List Name
deriving DecidableEq, Repr

/-- Split a file name at its last dot, following Rust `Path::file_stem` and
`Path::extension` semantics: `pkg.slpk ↦ (pkg, some slpk)`, `pkg ↦ (pkg, none)`,
`.gitignore ↦ (.gitignore, none)`. -/
def splitLastDot (cs : Name) : Name × Option Name :=
  let rev := cs.reverse
  let after := rev.takeWhile (fun c => decide (c ≠ '.'))
  if after.length = cs.length then (cs, none)
  else
    let stemRev := rev.drop (after.length + 1)
    if stemRev.isEmpty then (cs, none)
    else (stemRev.reverse, some after.reverse)

namespace Path

/-- Rust `Path::file_name`: the last component.  (The embedding represents
paths by their normal components, so the last component is the file name.) -/
def fileName (p : Path) : Option Name :=
  p.components.getLast?

/-- Rust `Path::parent`: drops the file name; `none` for the empty path and
for the bare root. -/
def parent (p : Path) : Option Path :=
  match p.components with
  | [] => none
  | _ :: _ => some ⟨p.absolute, p.components.dropLast⟩

/-- Rust `Path::extension`. -/
def extension (p : Path) : Option Name :=
  p.fileName.bind (fun n => (splitLastDot n).2)

/-- Rust `Path::file_stem`. -/
def fileStem (p : Path) : Option Name :=
  p.fileName.map (fun n => (splitLastDot n).1)

/-- Rust `PathBuf::set_file_name` on a path that has a file name: replaces
the last component. -/
def setFileName (p : Path) (n : Name) : Path :=
  ⟨p.absolute, p.components.dropLast ++ [n]⟩

/-- Rust `PathBuf::push` of a whole path: an absolute path replaces the
receiver, a relative one is appended. -/
def pushPath (p q : Path) : Path :=
  if q.absolute then q else ⟨p.absolute, p.components ++ q.components⟩

/-- Rust `PathBuf::push` of a single component. -/
def pushName (p : Path) (n : Name) : Path :=
  ⟨p.absolute, p.components ++ [n]⟩

/-- `p` is an ancestor of `q` (or equal to it): same kind, and the
components of `p` are a prefix of those of `q`. -/
def isPrefixOf (p q : Path) : Prop :=
  p.absolute = q.absolute ∧ p.components <+: q.components

instance (p q : Path) : Decidable (p.isPrefixOf q) :=
  inferInstanceAs (Decidable (_ ∧ _))

/-- `p` is a strict ancestor of `q`. -/
def isStrictPrefixOf (p q : Path) : Prop :=
  p.isPrefixOf q ∧ p.components.length < q.components.length

instance (p q : Path) : Decidable (p.isStrictPrefixOf q) :=
  inferInstanceAs (Decidable (_ ∧ _))

/-- The strict ancestors of `p` that have at least one component, from the
shortest to the longest. -/
def strictAncestors (p : Path) : List Path :=
  (List.range (p.components.length - 1)).map
    (fun i => ⟨p.absolute, p.components.take (i + 1)⟩)

/-- The prefixes of `p` that `std::fs::create_dir_all p` creates when they
are missing, from the shortest to the longest (ending with `p` itself). -/
def mkdirTargets (p : Path) : List Path :=
  (List.range p.components.length).map
    (fun i => ⟨p.absolute, p.components.take (i + 1)⟩)

/-- The path is a normalized component list: no empty, `.` or `..`
components.  Rust's component iterator only yields such components for the
paths the claims are about, and the embedded path operations model Rust's
on exactly this domain. -/
def Wf (p : Path) : Prop :=
  ∀ c ∈ p.components, c ≠ [] ∧ c ≠ ['.'] ∧ c ≠ ['.', '.']

instance (p : Path) : Decidable p.Wf :=
  inferInstanceAs (Decidable (∀ c ∈ p.components, _ ∧ _ ∧ _))

end Path

/-- A filesystem node: a directory, or a file with its byte content. -/
inductive Node where
  | dir
  | file (content : List Nat)
deriving DecidableEq, Repr

/-- The filesystem, as an association list from paths to nodes; the first
binding for a path wins. -/
abbrev FS := List (Path × Node)

/-- The errors of `src/unpack/mod.rs` (`enum UnpackError`), plus `ioError`
standing for any propagated `std::io` failure. -/
inductive UnpackError where
  | noFolderForPackage
  | outputFolderIsAFile
  | packageEntryHasAbsolutePath
  | ioError
deriving DecidableEq, Repr

namespace FS

/-- Look a path up in the filesystem. -/
def lookup (fs : FS) (p : Path) : Option Node :=
  match fs with
  | [] => none
  | (q, n) :: rest => if p = q then some n else lookup rest p

/-- Bind a path to a node (shadowing any earlier binding). -/
def set (fs : FS) (p : Path) (n : Node) : FS :=
  (p, n) :: fs

/-- Model of `std::fs::remove_dir_all p`: removes `p` and everything below
it. -/
def removeDirAll (fs : FS) (p : Path) : FS :=
  fs.filter (fun e => decide (¬ p.isPrefixOf e.1))

/-- Model of `std::fs::create_dir p`: fails if the path already exists. -/
def createDir (fs : FS) (p : Path) : Except UnpackError Unit × FS :=
  match fs.lookup p with
  | some _ => (.error .ioError, fs)
  | none => (.ok (), fs.set p .dir)

/-- Create each directory of a list in turn, skipping the ones that already
exist and failing on the first one blocked by a file (helper for
`create_dir_all`). -/
def mkdirs (fs : FS) : List Path → Except UnpackError Unit × FS
  | [] => (.ok (), fs)
  | q :: rest =>
    match fs.lookup q with
    | some .dir => mkdirs fs rest
    | some (.file _) => (.error .ioError, fs)
    | none => mkdirs (fs.set q .dir) rest

/-- Model of `std::fs::create_dir_all p`: creates every missing prefix of
`p`. -/
def createDirAll (fs : FS) (p : Path) : Except UnpackError Unit × FS :=
  fs.mkdirs p.mkdirTargets

/-- Model of `std::fs::File::create p`: truncates an existing file or
creates a fresh one, and fails if a directory occupies the path. -/
def createFile (fs : FS) (p : Path) (content : List Nat) :
    Except UnpackError Unit × FS :=
  match fs.lookup p with
  | some .dir => (.error .ioError, fs)
  | _ => (.ok (), fs.set p (.file content))

end FS

instance {ε α : Type} [DecidableEq ε] [DecidableEq α] : DecidableEq (Except ε α) := by
  intro a b
  cases a <;> cases b
  case error.error e f =>
    exact if h : e = f then .isTrue (by rw [h]) else .isFalse (fun he => h (by cases he; rfl))
  case error.ok e y => exact .isFalse (fun h => by cases h)
  case ok.error x f => exact .isFalse (fun h => by cases h)
  case ok.ok x y =>
    exact if h : x = y then .isTrue (by rw [h]) else .isFalse (fun he => h (by cases he; rfl))

/-- An archive entry: the path stored in the zip central directory (possibly
absolute, possibly containing `..` or `.` segments) together with the bytes
the entry's stream yields. -/
structure ZipEntry where
  rawName : Path
  content : List Nat
deriving DecidableEq, Repr

/-- Model of the zip crate's `ZipFile::sanitized_name` (an external
collaborator of the engine), from its documented contract: the stored name
is reduced to its normal components — root/drive prefixes and empty, `.`
and `..` segments are dropped — so the result is always a relative path. -/
def sanitize (p : Path) : Path :=
  ⟨false, p.components.filter (fun c => decide (c ≠ [] ∧ c ≠ ['.'] ∧ c ≠ ['.', '.']))⟩

/-- `archive_entry.sanitized_name()` as used by `unpack_entry`. -/
def sanitized_name (e : ZipEntry) : Path :=
  sanitize e.rawName

/-- The gzip extension checked by `unpack_entry` (`Some("gz")`). -/
def gzExt : Name := ['g', 'z']

/-- The suffix of the `s.ends_with("json")` check in `unpack_entry`. -/
def jsonSuffix : Name := ['j', 's', 'o', 'n']

/-- Embedding of `get_unpack_folder` (src/unpack/mod.rs, lines 33-70):
derives the output folder by dropping the archive path's extension, errors
when there is no extension or when a file occupies the output path, deletes
a pre-existing directory, and creates the folder afresh. -/
def get_unpack_folder (slpk_file_path : Path) (fs : FS) :
    Except UnpackError Path × FS :=
  match slpk_file_path.extension with
  | none => (.error .noFolderForPackage, fs)
  | some _ =>
    match slpk_file_path.fileStem with
    | none => (.error .noFolderForPackage, fs)
    | some file_stem =>
      let out := slpk_file_path.setFileName file_stem
      match fs.lookup out with
      | some .dir =>
        let fs1 := fs.removeDirAll out
        match fs1.createDir out with
        | (.error e, fs2) => (.error e, fs2)
        | (.ok _, fs2) => (.ok out, fs2)
      | some (.file _) => (.error .outputFolderIsAFile, fs)
      | none =>
        match fs.createDir out with
        | (.error e, fs2) => (.error e, fs2)
        | (.ok _, fs2) => (.ok out, fs2)

/-- Embedding of `create_folder_for_entry` (src/unpack/mod.rs, lines 72-88):
rejects entries whose parent is absolute, otherwise creates the parent
directories under the target directory and returns the entry's folder. -/
def create_folder_for_entry (target_directory : Path) (zip_entry : Path)
    (fs : FS) : Except UnpackError Path × FS :=
  match zip_entry.parent with
  | none => (.ok target_directory, fs)
  | some parent_path =>
    if parent_path.absolute then (.error .packageEntryHasAbsolutePath, fs)
    else
      let td := target_directory.pushPath parent_path
      match fs.createDirAll td with
      | (.error e, fs1) => (.error e, fs1)
      | (.ok _, fs1) => (.ok td, fs1)

/-- Embedding of `unpack_entry` (src/unpack/mod.rs, lines 90-145).  The
gzip decompressor and the `jsonformat` pretty-printer are external
collaborators and are passed in as `dec` and `fmt`; `File::create` followed
by the streaming write is modelled as creating the (empty) file and then
binding the written bytes. -/
def unpack_entry (dec fmt : List Nat → Except UnpackError (List Nat))
    (archive_entry : ZipEntry) (unpack_folder : Path) (fs : FS) :
    Except UnpackError Unit × FS :=
  let archive_entry_path := sanitized_name archive_entry
  match create_folder_for_entry unpack_folder archive_entry_path fs with
  | (.error e, fs1) => (.error e, fs1)
  | (.ok target_folder, fs1) =>
    if archive_entry_path.extension = some gzExt then
      match archive_entry_path.fileStem with
      | none => (.ok (), fs1)
      | some non_gzip_name =>
        let target_file_path := target_folder.pushName non_gzip_name
        match fs1.createFile target_file_path [] with
        | (.error e, fs2) => (.error e, fs2)
        | (.ok _, fs2) =>
          if jsonSuffix.isSuffixOf non_gzip_name then
            match dec archive_entry.content with
            | .error e => (.error e, fs2)
            | .ok decompressed =>
              match fmt decompressed with
              | .error e => (.error e, fs2)
              | .ok formatted =>
                (.ok (), fs2.set target_file_path (.file formatted))
          else
            match dec archive_entry.content with
            | .error e => (.error e, fs2)
            | .ok decompressed =>
              (.ok (), fs2.set target_file_path (.file decompressed))
    else
      match archive_entry_path.fileName with
      | none => (.ok (), fs1)
      | some name =>
        let target_file_path := target_folder.pushName name
        match fs1.createFile target_file_path archive_entry.content with
        | (.error e, fs2) => (.error e, fs2)
        | (.ok _, fs2) => (.ok (), fs2)

/-- Modelled from the spec: the Range Splitter of §4.1.  The source file
src/unpack/split_indices.rs is declared (`mod split_indices;`) and called
from `unpack` but is not among the provided sources, so the start of range
`i` is modelled from the spec's balance policy — every range has size
`total / workers` or that size plus one, the larger ranges coming first. -/
def rangeStart (total workers i : Nat) : Nat :=
  i * (total / workers) + min i (total % workers)

/-- Modelled from the spec: `split_indices::split_indices_into_ranges`
(called at src/unpack/mod.rs line 156), returning one half-open `(start,
end)` pair per worker. -/
def split_indices_into_ranges (num_entries num_ranges : Nat) :
    List (Nat × Nat) :=
  (List.range num_ranges).map
    (fun i => (rangeStart num_entries num_ranges i,
               rangeStart num_entries num_ranges (i + 1)))

/-- What `thread::join` on one worker yields inside `unpack`'s aggregation
loop: the worker's `Ok(entries_unpacked)`, its `Err(e)`, or a panic. -/
inductive ThreadOutcome where
  | ok (entriesUnpacked : Nat)
  | err (e : UnpackError)
  | panicked
deriving DecidableEq, Repr

/-- The overall result of `unpack`: a total count, a propagated worker
error, or the `panic!("Thread panicked!")` of the aggregation loop. -/
inductive RunOutcome where
  | ok (total : Nat)
  | err (e : UnpackError)
  | panic
deriving DecidableEq, Repr

/-- Embedding of the aggregation loop of `unpack` (src/unpack/mod.rs,
lines 176-193): threads are joined in spawn order, counts are summed, and
the loop returns on the first `Err` (or panics on an abnormal
termination).  The second component counts how many `t.join()` calls the
loop performed. -/
def joinThreads (acc : Nat) : List ThreadOutcome → RunOutcome × Nat
  | [] => (.ok acc, 0)
  | .ok n :: rest =>
    let r := joinThreads (acc + n) rest
    (r.1, r.2 + 1)
  | .err e :: _ => (.err e, 1)
  | .panicked :: _ => (.panic, 1)

/-- Embedding of `unpack` (src/unpack/mod.rs, lines 147-198).  The archive
is abstracted to its entry count, and the concurrent worker bodies — which
run `unpack_entry` over their ranges against the real filesystem — are
abstracted to the outcome each range's thread reports (`runWorker`); the
returned triple is the run outcome, the number of threads spawned, and the
filesystem as left by the setup phase. -/
def unpack (slpk_file_path : Path) (num_entries num_cores : Nat)
    (runWorker : Nat × Nat → ThreadOutcome) (fs : FS) :
    RunOutcome × Nat × FS :=
  match get_unpack_folder slpk_file_path fs with
  | (.error e, fs1) => (.err e, 0, fs1)
  | (.ok _unpack_folder, fs1) =>
    let splits := split_indices_into_ranges num_entries num_cores
    ((joinThreads 0 (splits.map runWorker)).1, splits.length, fs1)

/-- The filesystem is well formed: every strict ancestor (with at least one
component) of a bound path is itself bound to a directory.  Real
filesystems satisfy this: a file cannot exist without its parent
directories. -/
def FS.WF (fs : FS) : Prop :=
  ∀ e ∈ fs, ∀ q ∈ Path.strictAncestors e.1, fs.lookup q = some Node.dir

instance (fs : FS) : Decidable fs.WF :=
  inferInstanceAs (Decidable (∀ e ∈ fs, ∀ q ∈ Path.strictAncestors e.1, _ = _))

namespace FS

theorem lookup_set (fs : FS) (p q : Path) (n : Node) :
    (fs.set p n).lookup q = if q = p then some n else fs.lookup q := rfl

theorem lookup_set_ne (fs : FS) (p q : Path) (n : Node) (h : q ≠ p) :
    (fs.set p n).lookup q = fs.lookup q := by
  rw [lookup_set, if_neg h]

theorem lookup_removeDirAll (fs : FS) (p q : Path) :
    (fs.removeDirAll p).lookup q =
      if p.isPrefixOf q then none else fs.lookup q := by
  induction fs with
  | nil => simp only [removeDirAll, List.filter_nil, lookup]; split <;> rfl
  | cons e rest ih =>
    rcases e with ⟨k, v⟩
    by_cases he : p.isPrefixOf k
    · have hdrop : removeDirAll ((k, v) :: rest) p = removeDirAll rest p := by
        simp [removeDirAll, List.filter_cons, he]
      rw [hdrop, ih]
      by_cases hpq : p.isPrefixOf q
      · simp [hpq]
      · have hqk : q ≠ k := fun h => hpq (h ▸ he)
        simp [hpq, lookup, hqk]
    · have hkeep : removeDirAll ((k, v) :: rest) p = (k, v) :: removeDirAll rest p := by
        simp [removeDirAll, List.filter_cons, he]
      rw [hkeep]
      by_cases hqk : q = k
      · subst hqk
        simp [lookup, he]
      · simp only [lookup, if_neg hqk]
        exact ih

theorem lookup_some_mem (fs : FS) (p : Path) (n : Node)
    (h : fs.lookup p = some n) : ∃ e ∈ fs, e.1 = p := by
  induction fs with
  | nil => simp [lookup] at h
  | cons e rest ih =>
    by_cases hq : p = e.1
    · exact ⟨e, List.mem_cons_self _ _, hq.symm⟩
    · simp only [lookup, if_neg hq] at h
      obtain ⟨f, hf, hfp⟩ := ih h
      exact ⟨f, List.mem_cons_of_mem _ hf, hfp⟩

theorem mkdirs_lookup_change (l : List Path) (fs : FS) (q : Path)
    (h : (fs.mkdirs l).2.lookup q ≠ fs.lookup q) :
    q ∈ l ∧ fs.lookup q = none := by
  induction l generalizing fs with
  | nil => exact absurd rfl h
  | cons a rest ih =>
    rcases hl : fs.lookup a with _ | n
    · by_cases hq : q = a
      · subst hq; exact ⟨List.mem_cons_self _ _, hl⟩
      · have hmk : (fs.mkdirs (a :: rest)).2 = ((fs.set a .dir).mkdirs rest).2 := by
          simp only [mkdirs, hl]
        rw [hmk] at h
        have hbase : (fs.set a Node.dir).lookup q = fs.lookup q :=
          lookup_set_ne fs a q .dir hq
        have h2 : ((fs.set a .dir).mkdirs rest).2.lookup q
            ≠ (fs.set a .dir).lookup q := by rw [hbase]; exact h
        obtain ⟨hm, hn⟩ := ih (fs.set a .dir) h2
        exact ⟨List.mem_cons_of_mem _ hm, hbase ▸ hn⟩
    · cases n with
      | dir =>
        have hmk : (fs.mkdirs (a :: rest)).2 = (fs.mkdirs rest).2 := by
          simp only [mkdirs, hl]
        rw [hmk] at h
        obtain ⟨hm, hn⟩ := ih fs h
        exact ⟨List.mem_cons_of_mem _ hm, hn⟩
      | file c =>
        have hmk : (fs.mkdirs (a :: rest)).2 = fs := by
          simp only [mkdirs, hl]
        rw [hmk] at h
        exact absurd rfl h

end FS

theorem rangeStart_zero (total workers : Nat) : rangeStart total workers 0 = 0 := by
  simp [rangeStart]

theorem rangeStart_workers (total workers : Nat) (h : 1 ≤ workers) :
    rangeStart total workers workers = total := by
  unfold rangeStart
  rw [min_eq_right (le_of_lt (Nat.mod_lt total h))]
  exact Nat.div_add_mod total workers

theorem rangeStart_succ (total workers i : Nat) :
    rangeStart total workers (i + 1) =
      rangeStart total workers i +
        (total / workers + if i < total % workers then 1 else 0) := by
  unfold rangeStart
  rcases Nat.lt_or_ge i (total % workers) with hlt | hge
  · rw [min_eq_left (Nat.le_of_lt hlt), min_eq_left hlt, if_pos hlt, Nat.succ_mul]
    omega
  · rw [min_eq_right hge, min_eq_right (Nat.le_trans hge (Nat.le_succ i)),
      if_neg (Nat.not_lt.mpr hge), Nat.succ_mul]
    ring

theorem rangeStart_le_succ (total workers i : Nat) :
    rangeStart total workers i ≤ rangeStart total workers (i + 1) := by
  rw [rangeStart_succ]; exact Nat.le_add_right _ _

theorem rangeStart_mono (total workers : Nat) {i j : Nat} (h : i ≤ j) :
    rangeStart total workers i ≤ rangeStart total workers j := by
  induction j with
  | zero => simp_all
  | succ j ih =>
    rcases Nat.lt_or_ge i (j + 1) with hlt | hge
    · exact Nat.le_trans (ih (Nat.lt_succ_iff.mp hlt)) (rangeStart_le_succ total workers j)
    · have : i = j + 1 := Nat.le_antisymm h hge
      subst this; exact Nat.le_refl _

theorem rangeStart_exists (total workers j : Nat) :
    ∀ n, j < rangeStart total workers n →
      ∃ i, i < n ∧ rangeStart total workers i ≤ j ∧ j < rangeStart total workers (i + 1) := by
  intro n
  induction n with
  | zero => intro h; rw [rangeStart_zero] at h; exact absurd h (Nat.not_lt_zero j)
  | succ n ih =>
    intro h
    rcases Nat.lt_or_ge j (rangeStart total workers n) with hlt | hge
    · obtain ⟨i, hi, h1, h2⟩ := ih hlt
      exact ⟨i, Nat.lt_succ_of_lt hi, h1, h2⟩
    · exact ⟨n, Nat.lt_succ_self n, hge, h⟩

/-- C1: for every `total ≥ 0` and `workers ≥ 1` the range-splitting step
produces exactly `workers` half-open ranges; a zero-based index is below
`total` exactly when some range contains it; no index lies in two distinct
ranges; and every range's size is `total / workers` or that plus one, so
sizes differ by at most 1 and the per-worker ranges cover every archive
entry index. -/
theorem split_indices_into_ranges_partition (total workers : Nat)
    (h : 1 ≤ workers) :
    (split_indices_into_ranges total workers).length = workers ∧
    (∀ j : Nat,
      (∃ p ∈ split_indices_into_ranges total workers, p.1 ≤ j ∧ j < p.2) ↔
        j < total) ∧
    (∀ i₁ i₂ j : Nat,
      ∀ h₁ : i₁ < (split_indices_into_ranges total workers).length,
      ∀ h₂ : i₂ < (split_indices_into_ranges total workers).length,
      ((split_indices_into_ranges total workers).get ⟨i₁, h₁⟩).1 ≤ j →
      j < ((split_indices_into_ranges total workers).get ⟨i₁, h₁⟩).2 →
      ((split_indices_into_ranges total workers).get ⟨i₂, h₂⟩).1 ≤ j →
      j < ((split_indices_into_ranges total workers).get ⟨i₂, h₂⟩).2 →
      i₁ = i₂) ∧
    (∀ p ∈ split_indices_into_ranges total workers,
      p.2 - p.1 = total / workers ∨ p.2 - p.1 = total / workers + 1) := by
  have hlen : (split_indices_into_ranges total workers).length = workers := by
    simp [split_indices_into_ranges]
  have hget : ∀ i : Nat, ∀ hi : i < (split_indices_into_ranges total workers).length,
      (split_indices_into_ranges total workers).get ⟨i, hi⟩ =
        (rangeStart total workers i, rangeStart total workers (i + 1)) := by
    intro i hi
    simp [split_indices_into_ranges]
  have hmem : ∀ p, p ∈ split_indices_into_ranges total workers ↔
      ∃ i, i < workers ∧
        p = (rangeStart total workers i, rangeStart total workers (i + 1)) := by
    intro p
    simp only [split_indices_into_ranges, List.mem_map, List.mem_range]
    constructor
    · rintro ⟨i, hi, rfl⟩; exact ⟨i, hi, rfl⟩
    · rintro ⟨i, hi, rfl⟩; exact ⟨i, hi, rfl⟩
  refine ⟨hlen, ?_, ?_, ?_⟩
  · intro j
    constructor
    · rintro ⟨p, hp, hle, hlt⟩
      obtain ⟨i, hi, rfl⟩ := (hmem p).mp hp
      have h1 : j < rangeStart total workers (i + 1) := hlt
      have h2 : rangeStart total workers (i + 1) ≤ rangeStart total workers workers :=
        rangeStart_mono total workers hi
      rw [rangeStart_workers total workers h] at h2
      exact Nat.lt_of_lt_of_le h1 h2
    · intro hj
      have hj2 : j < rangeStart total workers workers := by
        rw [rangeStart_workers total workers h]; exact hj
      obtain ⟨i, hi, h1, h2⟩ := rangeStart_exists total workers j workers hj2
      exact ⟨(rangeStart total workers i, rangeStart total workers (i + 1)),
        (hmem _).mpr ⟨i, hi, rfl⟩, h1, h2⟩
  · intro i₁ i₂ j h₁ h₂ ha hb hc hd
    rw [hget i₁ h₁] at ha hb
    rw [hget i₂ h₂] at hc hd
    rcases Nat.lt_trichotomy i₁ i₂ with hlt | heq | hgt
    · have : rangeStart total workers (i₁ + 1) ≤ rangeStart total workers i₂ :=
        rangeStart_mono total workers hlt
      omega
    · exact heq
    · have : rangeStart total workers (i₂ + 1) ≤ rangeStart total workers i₁ :=
        rangeStart_mono total workers hgt
      omega
  · intro p hp
    obtain ⟨i, _, rfl⟩ := (hmem p).mp hp
    have hs := rangeStart_succ total workers i
    generalize total / workers = q at hs ⊢
    split at hs <;> omega

/-- C1 witness: at `total = 5`, `workers = 2` the hypothesis holds and the
partition property follows. -/
theorem split_indices_into_ranges_partition_witness :
    1 ≤ 2 ∧
    ((split_indices_into_ranges 5 2).length = 2 ∧
    (∀ j : Nat, (∃ p ∈ split_indices_into_ranges 5 2, p.1 ≤ j ∧ j < p.2) ↔ j < 5) ∧
    (∀ i₁ i₂ j : Nat,
      ∀ h₁ : i₁ < (split_indices_into_ranges 5 2).length,
      ∀ h₂ : i₂ < (split_indices_into_ranges 5 2).length,
      ((split_indices_into_ranges 5 2).get ⟨i₁, h₁⟩).1 ≤ j →
      j < ((split_indices_into_ranges 5 2).get ⟨i₁, h₁⟩).2 →
      ((split_indices_into_ranges 5 2).get ⟨i₂, h₂⟩).1 ≤ j →
      j < ((split_indices_into_ranges 5 2).get ⟨i₂, h₂⟩).2 →
      i₁ = i₂) ∧
    (∀ p ∈ split_indices_into_ranges 5 2,
      p.2 - p.1 = 5 / 2 ∨ p.2 - p.1 = 5 / 2 + 1)) :=
  ⟨by decide, split_indices_into_ranges_partition 5 2 (by decide)⟩

/-- Abbreviation used by the concrete witnesses: a component name given as a
string literal. -/
def txt (s : String) : Name := s.toList

/-- C3 counterexample: with two workers whose join-order outcomes are a
failure and then a success, the aggregation loop of `unpack` returns the
first failure after performing only one of the two joins — the coordinator
does not wait for the remaining worker, contrary to the claim. -/
theorem joinThreads_no_drain_counterexample :
    (joinThreads 0 [ThreadOutcome.err UnpackError.ioError, ThreadOutcome.ok 5]).1
        = RunOutcome.err UnpackError.ioError ∧
    (joinThreads 0 [ThreadOutcome.err UnpackError.ioError, ThreadOutcome.ok 5]).2 = 1 ∧
    [ThreadOutcome.err UnpackError.ioError, ThreadOutcome.ok 5].length = 2 ∧
    (1 : Nat) ≠ 2 := by
  decide

/-- C3 amended: when the workers joined before the first failing worker all
succeeded, the aggregation loop returns that first failure immediately,
having joined only the workers up to and including the failing one; the
remaining workers are not joined, and the overall run result is that
failure even though the earlier workers' entries were written. -/
theorem joinThreads_returns_first_error (pre : List ThreadOutcome)
    (e : UnpackError) (post : List ThreadOutcome) (acc : Nat)
    (h : ∀ o ∈ pre, ∃ n, o = ThreadOutcome.ok n) :
    joinThreads acc (pre ++ ThreadOutcome.err e :: post) =
      (RunOutcome.err e, pre.length + 1) := by
  induction pre generalizing acc with
  | nil => rfl
  | cons o rest ih =>
    obtain ⟨n, rfl⟩ := h o (List.mem_cons_self _ _)
    have hr := ih (acc + n) (fun o ho => h o (List.mem_cons_of_mem _ ho))
    simp only [List.cons_append, joinThreads, List.length_cons]
    rw [show rest.append (ThreadOutcome.err e :: post)
          = rest ++ ThreadOutcome.err e :: post from rfl, hr]

/-- C3 witness: one succeeding worker followed by a failing one and one more
worker; the loop reports the failure after two joins. -/
theorem joinThreads_returns_first_error_witness :
    (∀ o ∈ [ThreadOutcome.ok 2], ∃ n, o = ThreadOutcome.ok n) ∧
    joinThreads 0 ([ThreadOutcome.ok 2] ++
        ThreadOutcome.err UnpackError.ioError :: [ThreadOutcome.ok 5]) =
      (RunOutcome.err UnpackError.ioError, [ThreadOutcome.ok 2].length + 1) :=
  ⟨fun o ho => ⟨2, by cases ho with | head => rfl | tail _ ht => cases ht⟩,
   joinThreads_returns_first_error [ThreadOutcome.ok 2] UnpackError.ioError
     [ThreadOutcome.ok 5] 0
     (fun o ho => ⟨2, by cases ho with | head => rfl | tail _ ht => cases ht⟩)⟩

/-- C7: an archive path with no extension makes the output folder resolver
fail with the no-extension error without touching the filesystem, and
`unpack` then aborts with that error having spawned zero workers. -/
theorem no_extension_aborts (slpk : Path) (fs : FS)
    (num_entries num_cores : Nat) (runWorker : Nat × Nat → ThreadOutcome)
    (h : slpk.extension = none) :
    get_unpack_folder slpk fs = (.error .noFolderForPackage, fs) ∧
    unpack slpk num_entries num_cores runWorker fs =
      (.err .noFolderForPackage, 0, fs) := by
  have h1 : get_unpack_folder slpk fs = (.error .noFolderForPackage, fs) := by
    unfold get_unpack_folder
    rw [h]
  refine ⟨h1, ?_⟩
  unfold unpack
  rw [h1]

/-- C7 witness: a concrete extensionless archive path on a concrete
filesystem. -/
theorem no_extension_aborts_witness :
    (Path.mk false [txt "home", txt "pkg"]).extension = none ∧
    (get_unpack_folder ⟨false, [txt "home", txt "pkg"]⟩ [(⟨false, [txt "home"]⟩, .dir)]
        = (.error .noFolderForPackage, [(⟨false, [txt "home"]⟩, .dir)]) ∧
     unpack ⟨false, [txt "home", txt "pkg"]⟩ 4 2 (fun _ => ThreadOutcome.ok 2)
        [(⟨false, [txt "home"]⟩, .dir)]
        = (.err .noFolderForPackage, 0, [(⟨false, [txt "home"]⟩, .dir)])) :=
  ⟨by decide,
   no_extension_aborts ⟨false, [txt "home", txt "pkg"]⟩
     [(⟨false, [txt "home"]⟩, .dir)] 4 2 (fun _ => ThreadOutcome.ok 2) (by decide)⟩

theorem Path.isPrefixOf_refl (p : Path) : p.isPrefixOf p :=
  ⟨rfl, List.prefix_refl _⟩

theorem Path.mem_strictAncestors_of_strictPrefix (p q : Path)
    (h : p.isStrictPrefixOf q) (hne : p.components ≠ []) :
    p ∈ q.strictAncestors := by
  obtain ⟨⟨habs, hpre⟩, hlen⟩ := h
  have hpos : 0 < p.components.length := List.length_pos.mpr hne
  refine List.mem_map.mpr ⟨p.components.length - 1, List.mem_range.mpr (by omega), ?_⟩
  have hl : p.components.length - 1 + 1 = p.components.length := by omega
  rw [hl]
  have htake : q.components.take p.components.length = p.components := by
    obtain ⟨t, ht⟩ := hpre
    rw [← ht]
    exact List.take_left _ _
  cases p with
  | mk a c =>
    simp only at habs htake
    rw [Path.mk.injEq]
    exact ⟨habs.symm, htake⟩

/-- C4: when the computed output path (the archive path with its extension
removed) is occupied by a regular file, the output folder resolver fails
with the output-is-a-file error and leaves the filesystem — in particular
that file — untouched. -/
theorem get_unpack_folder_output_is_file (slpk : Path) (fs : FS)
    (ext st : Name) (c : List Nat)
    (hwf : slpk.Wf)
    (hext : slpk.extension = some ext)
    (hst : slpk.fileStem = some st)
    (hfile : fs.lookup (slpk.setFileName st) = some (.file c)) :
    get_unpack_folder slpk fs = (.error .outputFolderIsAFile, fs) ∧
    (get_unpack_folder slpk fs).2.lookup (slpk.setFileName st) = some (.file c) := by
  have h1 : get_unpack_folder slpk fs = (.error .outputFolderIsAFile, fs) := by
    simp only [get_unpack_folder, hext, hst, hfile]
  exact ⟨h1, by rw [h1]; exact hfile⟩

/-- C4 witness: a concrete archive path whose computed output path holds a
file. -/
theorem get_unpack_folder_output_is_file_witness :
    (Path.mk false [txt "a", txt "pkg.slpk"]).Wf ∧
    (get_unpack_folder ⟨false, [txt "a", txt "pkg.slpk"]⟩
        [(⟨false, [txt "a", txt "pkg"]⟩, .file [3])]
      = (.error .outputFolderIsAFile, [(⟨false, [txt "a", txt "pkg"]⟩, .file [3])]) ∧
     (get_unpack_folder ⟨false, [txt "a", txt "pkg.slpk"]⟩
        [(⟨false, [txt "a", txt "pkg"]⟩, .file [3])]).2.lookup
          ((Path.mk false [txt "a", txt "pkg.slpk"]).setFileName (txt "pkg"))
      = some (.file [3])) :=
  ⟨by decide,
   get_unpack_folder_output_is_file ⟨false, [txt "a", txt "pkg.slpk"]⟩
     [(⟨false, [txt "a", txt "pkg"]⟩, .file [3])] (txt "slpk") (txt "pkg") [3]
     (by decide) (by decide) (by decide) (by decide)⟩

/-- C6: for an archive path with an extension, a successful resolution
returns the archive path with its extension removed, and afterwards that
path is a directory with nothing below it — a pre-existing directory has
been recursively deleted and recreated fresh. -/
theorem get_unpack_folder_fresh_empty_dir (slpk : Path) (fs : FS)
    (ext st : Name) (out : Path) (fs1 : FS)
    (hwf : slpk.Wf) (hfs : fs.WF)
    (hext : slpk.extension = some ext)
    (hst : slpk.fileStem = some st)
    (hrun : get_unpack_folder slpk fs = (.ok out, fs1)) :
    out = slpk.setFileName st ∧
    fs1.lookup out = some .dir ∧
    ∀ q : Path, out.isStrictPrefixOf q → fs1.lookup q = none := by
  simp only [get_unpack_folder, hext, hst] at hrun
  split at hrun
  case h_1 heq =>
    -- the output path pre-exists as a directory: wiped and recreated
    have hc : (fs.removeDirAll (slpk.setFileName st)).createDir (slpk.setFileName st)
        = (.ok (), (fs.removeDirAll (slpk.setFileName st)).set (slpk.setFileName st) .dir) := by
      unfold FS.createDir
      rw [FS.lookup_removeDirAll, if_pos (Path.isPrefixOf_refl _)]
    rw [hc] at hrun
    simp only [Prod.mk.injEq, Except.ok.injEq] at hrun
    obtain ⟨rfl, rfl⟩ := hrun
    refine ⟨rfl, ?_, ?_⟩
    · rw [FS.lookup_set, if_pos rfl]
    · intro q hq
      have hne : q ≠ slpk.setFileName st := by
        intro h
        exact absurd (h ▸ hq).2 (lt_irrefl _)
      rw [FS.lookup_set_ne _ _ _ _ hne, FS.lookup_removeDirAll,
        if_pos hq.1]
  case h_2 heq => simp at hrun
  case h_3 heq =>
    -- the output path does not exist yet: created fresh
    have hc : fs.createDir (slpk.setFileName st)
        = (.ok (), fs.set (slpk.setFileName st) .dir) := by
      unfold FS.createDir
      rw [heq]
    rw [hc] at hrun
    simp only [Prod.mk.injEq, Except.ok.injEq] at hrun
    obtain ⟨rfl, rfl⟩ := hrun
    refine ⟨rfl, ?_, ?_⟩
    · rw [FS.lookup_set, if_pos rfl]
    · intro q hq
      have hne : q ≠ slpk.setFileName st := by
        intro h
        exact absurd (h ▸ hq).2 (lt_irrefl _)
      rw [FS.lookup_set_ne _ _ _ _ hne]
      by_contra hcon
      rcases ho : fs.lookup q with _ | n
      · exact hcon ho
      · obtain ⟨e, he, hep⟩ := FS.lookup_some_mem fs q n ho
        have hanc : (slpk.setFileName st) ∈ Path.strictAncestors e.1 := by
          rw [hep]
          exact Path.mem_strictAncestors_of_strictPrefix _ _ hq
            (by simp [Path.setFileName])
        have := hfs e he _ hanc
        rw [heq] at this
        cases this

/-- C6 witness: a concrete archive path whose output folder pre-exists as a
directory with a stale child; resolution succeeds and yields a fresh empty
directory. -/
theorem get_unpack_folder_fresh_empty_dir_witness :
    ((Path.mk false [txt "a", txt "pkg.slpk"]).Wf ∧
     FS.WF [(⟨false, [txt "a", txt "pkg"]⟩, .dir),
            (⟨false, [txt "a", txt "pkg", txt "old"]⟩, .file [1]),
            (⟨false, [txt "a"]⟩, .dir)] ∧
     get_unpack_folder ⟨false, [txt "a", txt "pkg.slpk"]⟩
        [(⟨false, [txt "a", txt "pkg"]⟩, .dir),
         (⟨false, [txt "a", txt "pkg", txt "old"]⟩, .file [1]),
         (⟨false, [txt "a"]⟩, .dir)]
       = (.ok ⟨false, [txt "a", txt "pkg"]⟩,
          (get_unpack_folder ⟨false, [txt "a", txt "pkg.slpk"]⟩
            [(⟨false, [txt "a", txt "pkg"]⟩, .dir),
             (⟨false, [txt "a", txt "pkg", txt "old"]⟩, .file [1]),
             (⟨false, [txt "a"]⟩, .dir)]).2) ∧
     (Path.mk false [txt "a", txt "pkg"]
        = (Path.mk false [txt "a", txt "pkg.slpk"]).setFileName (txt "pkg") ∧
      (get_unpack_folder ⟨false, [txt "a", txt "pkg.slpk"]⟩
            [(⟨false, [txt "a", txt "pkg"]⟩, .dir),
             (⟨false, [txt "a", txt "pkg", txt "old"]⟩, .file [1]),
             (⟨false, [txt "a"]⟩, .dir)]).2.lookup ⟨false, [txt "a", txt "pkg"]⟩
          = some .dir ∧
      ∀ q : Path, (Path.mk false [txt "a", txt "pkg"]).isStrictPrefixOf q →
        (get_unpack_folder ⟨false, [txt "a", txt "pkg.slpk"]⟩
            [(⟨false, [txt "a", txt "pkg"]⟩, .dir),
             (⟨false, [txt "a", txt "pkg", txt "old"]⟩, .file [1]),
             (⟨false, [txt "a"]⟩, .dir)]).2.lookup q = none)) :=
  ⟨by decide, by decide, by decide,
   get_unpack_folder_fresh_empty_dir ⟨false, [txt "a", txt "pkg.slpk"]⟩
     [(⟨false, [txt "a", txt "pkg"]⟩, .dir),
      (⟨false, [txt "a", txt "pkg", txt "old"]⟩, .file [1]),
      (⟨false, [txt "a"]⟩, .dir)]
     (txt "slpk") (txt "pkg") ⟨false, [txt "a", txt "pkg"]⟩ _
     (by decide) (by decide) (by decide) (by decide) (by decide)⟩

theorem Path.parent_eq_none_iff (p : Path) : p.parent = none ↔ p.components = [] := by
  unfold parent
  cases hc : p.components <;> simp

theorem Path.parent_of_ne_nil (p : Path) (h : p.components ≠ []) :
    p.parent = some ⟨p.absolute, p.components.dropLast⟩ := by
  unfold parent
  cases hc : p.components with
  | nil => exact absurd hc h
  | cons a l => rfl

theorem sanitized_name_absolute (e : ZipEntry) :
    (sanitized_name e).absolute = false := rfl

theorem create_folder_for_entry_ok_target (root p : Path) (fs : FS)
    (r : Path) (fs1 : FS)
    (hp : p.absolute = false) (hne : p.components ≠ [])
    (h : create_folder_for_entry root p fs = (.ok r, fs1)) :
    r = ⟨root.absolute, root.components ++ p.components.dropLast⟩ := by
  unfold create_folder_for_entry at h
  rw [Path.parent_of_ne_nil p hne] at h
  simp only [hp, Bool.false_eq_true, if_false, Path.pushPath] at h
  split at h
  · exact absurd h (by simp)
  · simp only [Prod.mk.injEq, Except.ok.injEq] at h
    exact h.1.symm

/-- C9: an archive entry whose path has neither a parent nor a file name
(a degenerate name, such as a stored name that sanitizes to nothing) is
silently skipped: the entry processor writes nothing — the filesystem is
returned unchanged — and reports success rather than an error. -/
theorem unpack_entry_skips_degenerate
    (dec fmt : List Nat → Except UnpackError (List Nat))
    (e : ZipEntry) (root : Path) (fs : FS)
    (hpar : (sanitized_name e).parent = none)
    (hfn : (sanitized_name e).fileName = none) :
    unpack_entry dec fmt e root fs = (.ok (), fs) := by
  have hc : (sanitized_name e).components = [] :=
    (Path.parent_eq_none_iff _).mp hpar
  have hq : sanitized_name e = ⟨false, []⟩ := by
    cases hsn : sanitized_name e with
    | mk a c =>
      have ha : a = false := by
        have := sanitized_name_absolute e
        rw [hsn] at this
        exact this
      have hcc : c = [] := by
        rw [hsn] at hc
        exact hc
      rw [ha, hcc]
  unfold unpack_entry
  rw [hq]
  rfl

/-- C9 witness: a stored name consisting only of a root prefix and `..`
segments sanitizes to the empty path and is skipped. -/
theorem unpack_entry_skips_degenerate_witness :
    (sanitized_name ⟨⟨true, [txt "..", txt "."]⟩, [5, 6]⟩).parent = none ∧
    (sanitized_name ⟨⟨true, [txt "..", txt "."]⟩, [5, 6]⟩).fileName = none ∧
    unpack_entry (fun b => .ok b) (fun b => .ok b)
        ⟨⟨true, [txt "..", txt "."]⟩, [5, 6]⟩ ⟨false, [txt "r"]⟩
        [(⟨false, [txt "r"]⟩, .dir)]
      = (.ok (), [(⟨false, [txt "r"]⟩, .dir)]) :=
  ⟨by decide, by decide,
   unpack_entry_skips_degenerate (fun b => .ok b) (fun b => .ok b)
     ⟨⟨true, [txt "..", txt "."]⟩, [5, 6]⟩ ⟨false, [txt "r"]⟩
     [(⟨false, [txt "r"]⟩, .dir)] (by decide) (by decide)⟩

theorem FS.createFile_ok (fs : FS) (p : Path) (c : List Nat) (a : Unit)
    (fs2 : FS) (h : fs.createFile p c = (.ok a, fs2)) :
    fs2 = fs.set p (.file c) := by
  unfold createFile at h
  split at h
  · exact absurd h (by simp)
  · simp only [Prod.mk.injEq] at h
    exact h.2.symm

theorem fileStem_components_ne_nil (p : Path) (stem : Name)
    (h : p.fileStem = some stem) : p.components ≠ [] := by
  intro hc
  rw [Path.fileStem, Path.fileName, hc] at h
  simp at h

/-- C5: an archive entry whose file name has the gzip extension and whose
de-suffixed name ends in the JSON suffix is written, on success, to the
output root joined with the entry path minus the `.gz` suffix, and the
written content is the JSON formatter's output on the gzip-decompressed
bytes — not the raw bytes — so the JSON values survive whenever the
formatter preserves them. -/
theorem unpack_entry_formats_json
    (dec fmt : List Nat → Except UnpackError (List Nat))
    (e : ZipEntry) (root : Path) (fs fs1 : FS) (stem : Name) (b j : List Nat)
    (hext : (sanitized_name e).extension = some gzExt)
    (hstem : (sanitized_name e).fileStem = some stem)
    (hjson : jsonSuffix.isSuffixOf stem = true)
    (hdec : dec e.content = .ok b)
    (hfmt : fmt b = .ok j)
    (hrun : unpack_entry dec fmt e root fs = (.ok (), fs1)) :
    fs1.lookup
        (root.pushPath ⟨false, (sanitized_name e).components.dropLast ++ [stem]⟩)
      = some (.file j) ∧
    ∀ (α : Type) (parse : List Nat → α),
      (∀ x y, fmt x = .ok y → parse y = parse x) → parse j = parse b := by
  have hne : (sanitized_name e).components ≠ [] :=
    fileStem_components_ne_nil _ stem hstem
  simp only [unpack_entry] at hrun
  split at hrun
  case h_1 => exact absurd hrun (by simp)
  case h_2 tf fs2 heq =>
    have htf := create_folder_for_entry_ok_target root (sanitized_name e) fs
      tf fs2 (sanitized_name_absolute e) hne heq
    rw [hext, if_pos rfl] at hrun
    split at hrun
    case h_1 heq2 => rw [hstem] at heq2; cases heq2
    case h_2 ngn heq2 =>
      rw [hstem] at heq2
      have hngn : ngn = stem := by cases heq2; rfl
      rw [hngn] at hrun
      split at hrun
      case h_1 => exact absurd hrun (by simp)
      case h_2 a fs3 heq3 =>
        rw [if_pos hjson] at hrun
        split at hrun
        case h_1 heq4 => rw [hdec] at heq4; cases heq4
        case h_2 d heq4 =>
          rw [hdec] at heq4
          have hd : d = b := by cases heq4; rfl
          rw [hd] at hrun
          split at hrun
          case h_1 heq5 => rw [hfmt] at heq5; cases heq5
          case h_2 f heq5 =>
            rw [hfmt] at heq5
            have hf : f = j := by cases heq5; rfl
            rw [hf] at hrun
            simp only [Prod.mk.injEq] at hrun
            obtain ⟨-, rfl⟩ := hrun
            constructor
            · have hpath : root.pushPath
                  ⟨false, (sanitized_name e).components.dropLast ++ [stem]⟩
                  = tf.pushName stem := by
                rw [htf]
                simp [Path.pushPath, Path.pushName, List.append_assoc]
              rw [hpath, FS.lookup_set, if_pos rfl]
            · intro α parse hpres
              exact hpres b j hfmt

/-- C5 witness: the entry `data/values.json.gz` with a concrete decompressor
and formatter; the formatted content lands at `r/data/values.json`. -/
theorem unpack_entry_formats_json_witness :
    (sanitized_name ⟨⟨false, [txt "data", txt "values.json.gz"]⟩, [1, 2]⟩).extension
        = some gzExt ∧
    ((unpack_entry (fun s => .ok s.reverse) (fun s => .ok (0 :: s))
        ⟨⟨false, [txt "data", txt "values.json.gz"]⟩, [1, 2]⟩
        ⟨false, [txt "r"]⟩ [(⟨false, [txt "r"]⟩, .dir)]).2.lookup
        ((Path.mk false [txt "r"]).pushPath
          ⟨false, (sanitized_name ⟨⟨false, [txt "data", txt "values.json.gz"]⟩,
              [1, 2]⟩).components.dropLast ++ [txt "values.json"]⟩)
      = some (.file [0, 2, 1]) ∧
     ∀ (α : Type) (parse : List Nat → α),
       (∀ x y, (fun s => (.ok (0 :: s) : Except UnpackError (List Nat))) x = .ok y →
         parse y = parse x) →
       parse [0, 2, 1] = parse [2, 1]) :=
  ⟨by decide,
   unpack_entry_formats_json (fun s => .ok s.reverse) (fun s => .ok (0 :: s))
     ⟨⟨false, [txt "data", txt "values.json.gz"]⟩, [1, 2]⟩
     ⟨false, [txt "r"]⟩ [(⟨false, [txt "r"]⟩, .dir)]
     (unpack_entry (fun s => .ok s.reverse) (fun s => .ok (0 :: s))
        ⟨⟨false, [txt "data", txt "values.json.gz"]⟩, [1, 2]⟩
        ⟨false, [txt "r"]⟩ [(⟨false, [txt "r"]⟩, .dir)]).2
     (txt "values.json") [2, 1] [0, 2, 1]
     (by decide) (by decide) (by decide) (by decide) (by decide) (by decide)⟩

theorem dropLast_append_of_getLast? (l : List Name) (a : Name)
    (h : l.getLast? = some a) : l.dropLast ++ [a] = l := by
  have hne : l ≠ [] := by intro hl; rw [hl] at h; cases h
  have hg := List.getLast?_eq_getLast l hne
  rw [hg] at h
  have ha : l.getLast hne = a := by cases h; rfl
  rw [← ha]
  exact List.dropLast_append_getLast hne

/-- C8: content is preserved exactly for entries that are not JSON
reformatted.  A gzip entry whose de-suffixed name does not end in the JSON
suffix is written, on success, to the de-suffixed target path with exactly
the decompressor's output — the original uncompressed bytes; an entry
without the gzip extension is copied byte-for-byte to the file named by
the entry's own file name under the output root. -/
theorem unpack_entry_copies_verbatim :
    (∀ (dec fmt : List Nat → Except UnpackError (List Nat))
       (e : ZipEntry) (root : Path) (fs fs1 : FS) (stem : Name) (b : List Nat),
       (sanitized_name e).extension = some gzExt →
       (sanitized_name e).fileStem = some stem →
       jsonSuffix.isSuffixOf stem = false →
       dec e.content = .ok b →
       unpack_entry dec fmt e root fs = (.ok (), fs1) →
       fs1.lookup
           (root.pushPath ⟨false, (sanitized_name e).components.dropLast ++ [stem]⟩)
         = some (.file b)) ∧
    (∀ (dec fmt : List Nat → Except UnpackError (List Nat))
       (e : ZipEntry) (root : Path) (fs fs1 : FS) (name : Name),
       ¬ (sanitized_name e).extension = some gzExt →
       (sanitized_name e).fileName = some name →
       unpack_entry dec fmt e root fs = (.ok (), fs1) →
       fs1.lookup (root.pushPath ⟨false, (sanitized_name e).components⟩)
         = some (.file e.content)) := by
  constructor
  · intro dec fmt e root fs fs1 stem b hext hstem hjson hdec hrun
    have hne : (sanitized_name e).components ≠ [] :=
      fileStem_components_ne_nil _ stem hstem
    simp only [unpack_entry] at hrun
    split at hrun
    case h_1 => exact absurd hrun (by simp)
    case h_2 tf fs2 heq =>
      have htf := create_folder_for_entry_ok_target root (sanitized_name e) fs
        tf fs2 (sanitized_name_absolute e) hne heq
      rw [hext, if_pos rfl] at hrun
      split at hrun
      case h_1 heq2 => rw [hstem] at heq2; cases heq2
      case h_2 ngn heq2 =>
        rw [hstem] at heq2
        have hngn : ngn = stem := by cases heq2; rfl
        rw [hngn] at hrun
        split at hrun
        case h_1 => exact absurd hrun (by simp)
        case h_2 a fs3 heq3 =>
          rw [if_neg (by rw [hjson]; exact Bool.false_ne_true)] at hrun
          split at hrun
          case h_1 heq4 => rw [hdec] at heq4; cases heq4
          case h_2 d heq4 =>
            rw [hdec] at heq4
            have hd : d = b := by cases heq4; rfl
            rw [hd] at hrun
            simp only [Prod.mk.injEq] at hrun
            obtain ⟨-, rfl⟩ := hrun
            have hpath : root.pushPath
                ⟨false, (sanitized_name e).components.dropLast ++ [stem]⟩
                = tf.pushName stem := by
              rw [htf]
              simp [Path.pushPath, Path.pushName, List.append_assoc]
            rw [hpath, FS.lookup_set, if_pos rfl]
  · intro dec fmt e root fs fs1 name hext hfn hrun
    have hne : (sanitized_name e).components ≠ [] := by
      intro hc
      rw [Path.fileName, hc] at hfn
      cases hfn
    simp only [unpack_entry] at hrun
    split at hrun
    case h_1 => exact absurd hrun (by simp)
    case h_2 tf fs2 heq =>
      have htf := create_folder_for_entry_ok_target root (sanitized_name e) fs
        tf fs2 (sanitized_name_absolute e) hne heq
      rw [if_neg hext] at hrun
      split at hrun
      case h_1 heq2 => rw [hfn] at heq2; cases heq2
      case h_2 nm2 heq2 =>
        rw [hfn] at heq2
        have hnm : nm2 = name := by cases heq2; rfl
        rw [hnm] at hrun
        split at hrun
        case h_1 => exact absurd hrun (by simp)
        case h_2 a fs3 heq3 =>
          simp only [Prod.mk.injEq] at hrun
          obtain ⟨-, rfl⟩ := hrun
          have hfs3 := FS.createFile_ok fs2 (tf.pushName name) e.content a fs3 heq3
          have hpath : root.pushPath ⟨false, (sanitized_name e).components⟩
              = tf.pushName name := by
            rw [htf]
            simp only [Path.pushPath, Path.pushName]
            rw [if_neg (by simp)]
            rw [Path.mk.injEq]
            refine ⟨rfl, ?_⟩
            rw [List.append_assoc, dropLast_append_of_getLast? _ name hfn]
          rw [hpath, hfs3, FS.lookup_set, if_pos rfl]

/-- C8 witness: the non-JSON gzip entry `data/mesh.bin.gz` keeps its
decompressed bytes, and the plain entry `readme.txt` is copied verbatim. -/
theorem unpack_entry_copies_verbatim_witness :
    ((unpack_entry (fun s => .ok s.reverse) (fun s => .ok (0 :: s))
        ⟨⟨false, [txt "data", txt "mesh.bin.gz"]⟩, [1, 2, 3]⟩
        ⟨false, [txt "r"]⟩ [(⟨false, [txt "r"]⟩, .dir)]).2.lookup
        ((Path.mk false [txt "r"]).pushPath
          ⟨false, (sanitized_name ⟨⟨false, [txt "data", txt "mesh.bin.gz"]⟩,
              [1, 2, 3]⟩).components.dropLast ++ [txt "mesh.bin"]⟩)
      = some (.file [3, 2, 1])) ∧
    ((unpack_entry (fun s => .ok s.reverse) (fun s => .ok (0 :: s))
        ⟨⟨false, [txt "readme.txt"]⟩, [9, 8]⟩
        ⟨false, [txt "r"]⟩ [(⟨false, [txt "r"]⟩, .dir)]).2.lookup
        ((Path.mk false [txt "r"]).pushPath
          ⟨false, (sanitized_name ⟨⟨false, [txt "readme.txt"]⟩, [9, 8]⟩).components⟩)
      = some (.file [9, 8])) :=
  ⟨unpack_entry_copies_verbatim.1 (fun s => .ok s.reverse) (fun s => .ok (0 :: s))
     ⟨⟨false, [txt "data", txt "mesh.bin.gz"]⟩, [1, 2, 3]⟩
     ⟨false, [txt "r"]⟩ [(⟨false, [txt "r"]⟩, .dir)]
     (unpack_entry (fun s => .ok s.reverse) (fun s => .ok (0 :: s))
        ⟨⟨false, [txt "data", txt "mesh.bin.gz"]⟩, [1, 2, 3]⟩
        ⟨false, [txt "r"]⟩ [(⟨false, [txt "r"]⟩, .dir)]).2
     (txt "mesh.bin") [3, 2, 1]
     (by decide) (by decide) (by decide) (by decide) (by decide),
   unpack_entry_copies_verbatim.2 (fun s => .ok s.reverse) (fun s => .ok (0 :: s))
     ⟨⟨false, [txt "readme.txt"]⟩, [9, 8]⟩
     ⟨false, [txt "r"]⟩ [(⟨false, [txt "r"]⟩, .dir)]
     (unpack_entry (fun s => .ok s.reverse) (fun s => .ok (0 :: s))
        ⟨⟨false, [txt "readme.txt"]⟩, [9, 8]⟩
        ⟨false, [txt "r"]⟩ [(⟨false, [txt "r"]⟩, .dir)]).2
     (txt "readme.txt")
     (by decide) (by decide) (by decide)⟩

theorem FS.createFile_error (fs : FS) (p : Path) (c : List Nat)
    (e2 : UnpackError) (fs2 : FS)
    (h : fs.createFile p c = (.error e2, fs2)) : fs2 = fs := by
  unfold createFile at h
  split at h
  · simp only [Prod.mk.injEq] at h
    exact h.2.symm
  · exact absurd h (by simp)

theorem lookup_change_through_set (fs0 fs : FS) (p q : Path) (n : Node)
    (h : (fs.set p n).lookup q ≠ fs0.lookup q) :
    q = p ∨ fs.lookup q ≠ fs0.lookup q := by
  by_cases hq : q = p
  · exact Or.inl hq
  · right
    rw [FS.lookup_set_ne fs p q n hq] at h
    exact h

theorem mem_mkdirTargets_cases (root : Path) (pc : List Name) (q : Path)
    (hq : q ∈ Path.mkdirTargets ⟨root.absolute, root.components ++ pc⟩) :
    q ∈ root.strictAncestors ∨ root.isPrefixOf q := by
  simp only [Path.mkdirTargets, List.mem_map, List.mem_range] at hq
  obtain ⟨i, hi, rfl⟩ := hq
  rcases Nat.lt_or_ge (i + 1) root.components.length with hlt | hge
  · left
    simp only [Path.strictAncestors, List.mem_map, List.mem_range]
    refine ⟨i, by omega, ?_⟩
    rw [Path.mk.injEq]
    refine ⟨rfl, ?_⟩
    rw [List.take_append_eq_append_take,
      show i + 1 - root.components.length = 0 from by omega,
      List.take_zero, List.append_nil]
  · right
    refine ⟨rfl, ?_⟩
    rw [List.take_append_eq_append_take, List.take_of_length_le hge]
    exact List.prefix_append _ _

theorem create_folder_for_entry_change (root p : Path) (fs : FS) (q : Path)
    (hp : p.absolute = false)
    (hroot : ∀ r ∈ root.strictAncestors, fs.lookup r = some Node.dir)
    (hch : (create_folder_for_entry root p fs).2.lookup q ≠ fs.lookup q) :
    root.isPrefixOf q := by
  rcases hc : p.components with _ | ⟨a, l⟩
  · have h0 : (create_folder_for_entry root p fs).2 = fs := by
      unfold create_folder_for_entry
      rw [(Path.parent_eq_none_iff p).mpr hc]
    rw [h0] at hch
    exact absurd rfl hch
  · have hne : p.components ≠ [] := by rw [hc]; simp
    have hsnd : (create_folder_for_entry root p fs).2
        = (fs.mkdirs (Path.mkdirTargets
            ⟨root.absolute, root.components ++ p.components.dropLast⟩)).2 := by
      unfold create_folder_for_entry
      rw [Path.parent_of_ne_nil p hne]
      simp only [hp, Bool.false_eq_true, if_false, Path.pushPath, FS.createDirAll]
      split
      case h_1 heq => rw [heq]
      case h_2 heq => rw [heq]
    rw [hsnd] at hch
    obtain ⟨hmem, hnone⟩ := FS.mkdirs_lookup_change _ fs q hch
    rcases mem_mkdirTargets_cases root p.components.dropLast q hmem with hanc | hpre
    · rw [hroot q hanc] at hnone
      cases hnone
    · exact hpre

theorem create_folder_for_entry_ok_extends (root p : Path) (fs : FS)
    (tf : Path) (fs1 : FS) (hp : p.absolute = false)
    (h : create_folder_for_entry root p fs = (.ok tf, fs1)) :
    ∃ extra, tf = ⟨root.absolute, root.components ++ extra⟩ := by
  rcases hc : p.components with _ | ⟨a, l⟩
  · have h0 : create_folder_for_entry root p fs = (.ok root, fs) := by
      unfold create_folder_for_entry
      rw [(Path.parent_eq_none_iff p).mpr hc]
    rw [h0] at h
    simp only [Prod.mk.injEq, Except.ok.injEq] at h
    refine ⟨[], ?_⟩
    rw [← h.1]
    cases root
    simp
  · have hne : p.components ≠ [] := by rw [hc]; simp
    exact ⟨p.components.dropLast,
      create_folder_for_entry_ok_target root p fs tf fs1 hp hne h⟩

theorem root_isPrefixOf_pushName (root : Path) (extra : List Name) (n : Name) :
    root.isPrefixOf ((Path.mk root.absolute (root.components ++ extra)).pushName n) := by
  refine ⟨rfl, ?_⟩
  simp only [Path.pushName]
  rw [List.append_assoc]
  exact List.prefix_append _ _

theorem unpack_entry_change
    (dec fmt : List Nat → Except UnpackError (List Nat))
    (e : ZipEntry) (root : Path) (fs : FS) (q : Path)
    (hroot : ∀ r ∈ root.strictAncestors, fs.lookup r = some Node.dir)
    (hch : (unpack_entry dec fmt e root fs).2.lookup q ≠ fs.lookup q) :
    root.isPrefixOf q := by
  simp only [unpack_entry] at hch
  split at hch
  case h_1 e2 fs1 heq =>
    exact create_folder_for_entry_change root _ fs q (sanitized_name_absolute e)
      hroot (by rw [heq]; exact hch)
  case h_2 tf fs1 heq =>
    obtain ⟨extra, htf⟩ := create_folder_for_entry_ok_extends root _ fs tf fs1
      (sanitized_name_absolute e) heq
    have hfs1 : fs1.lookup q ≠ fs.lookup q → root.isPrefixOf q := fun h2 =>
      create_folder_for_entry_change root _ fs q (sanitized_name_absolute e)
        hroot (by rw [heq]; exact h2)
    split at hch
    · split at hch
      case h_1 => exact hfs1 hch
      case h_2 ngn heq2 =>
        have hpre : root.isPrefixOf (tf.pushName ngn) := by
          rw [htf]; exact root_isPrefixOf_pushName root extra ngn
        split at hch
        case h_1 e3 fs3 heq3 =>
          rw [FS.createFile_error fs1 _ _ e3 fs3 heq3] at hch
          exact hfs1 hch
        case h_2 a fs3 heq3 =>
          have h3 : fs3 = fs1.set (tf.pushName ngn) (.file []) :=
            FS.createFile_ok fs1 _ _ a fs3 heq3
          have hfs3 : fs3.lookup q ≠ fs.lookup q → root.isPrefixOf q := by
            intro h4
            rw [h3] at h4
            rcases lookup_change_through_set fs fs1 _ q _ h4 with rfl | h5
            · exact hpre
            · exact hfs1 h5
          split at hch
          · split at hch
            case h_1 => exact hfs3 hch
            case h_2 d heq4 =>
              split at hch
              case h_1 => exact hfs3 hch
              case h_2 f heq5 =>
                rcases lookup_change_through_set fs fs3 _ q _ hch with rfl | h5
                · exact hpre
                · exact hfs3 h5
          · split at hch
            case h_1 => exact hfs3 hch
            case h_2 d heq4 =>
              rcases lookup_change_through_set fs fs3 _ q _ hch with rfl | h5
              · exact hpre
              · exact hfs3 h5
    · split at hch
      case h_1 => exact hfs1 hch
      case h_2 nm2 heq2 =>
        have hpre : root.isPrefixOf (tf.pushName nm2) := by
          rw [htf]; exact root_isPrefixOf_pushName root extra nm2
        split at hch
        case h_1 e3 fs3 heq3 =>
          rw [FS.createFile_error fs1 _ _ e3 fs3 heq3] at hch
          exact hfs1 hch
        case h_2 a fs3 heq3 =>
          have h3 : fs3 = fs1.set (tf.pushName nm2) (.file e.content) :=
            FS.createFile_ok fs1 _ _ a fs3 heq3
          rw [h3] at hch
          rcases lookup_change_through_set fs fs1 _ q _ hch with rfl | h5
          · exact hpre
          · exact hfs1 h5

/-- C10: the entry's stored path is sanitized before any filesystem use —
the sanitized path is relative (root/drive prefixes stripped) and free of
`..` segments — and every path whose binding the entry processor changes
(every directory created and every file written) lies under the output
root, provided the root's own ancestors exist as directories. -/
theorem unpack_entry_stays_under_root
    (dec fmt : List Nat → Except UnpackError (List Nat))
    (e : ZipEntry) (root : Path) (fs : FS)
    (hroot : ∀ r ∈ root.strictAncestors, fs.lookup r = some Node.dir) :
    (sanitized_name e).absolute = false ∧
    (∀ c ∈ (sanitized_name e).components, c ≠ ['.', '.']) ∧
    ∀ q : Path, (unpack_entry dec fmt e root fs).2.lookup q ≠ fs.lookup q →
      root.isPrefixOf q := by
  refine ⟨rfl, ?_, ?_⟩
  · intro c hc
    have := (List.mem_filter.mp hc).2
    simp only [decide_eq_true_eq] at this
    exact this.2.2
  · intro q hq
    exact unpack_entry_change dec fmt e root fs q hroot hq

/-- C10 witness: an entry stored as `/../../etc/passwd` on a root whose
ancestor exists; the hypotheses hold and the containment follows. -/
theorem unpack_entry_stays_under_root_witness :
    (∀ r ∈ (Path.mk false [txt "a", txt "out"]).strictAncestors,
      FS.lookup [(⟨false, [txt "a", txt "out"]⟩, .dir), (⟨false, [txt "a"]⟩, .dir)] r
        = some Node.dir) ∧
    ((sanitized_name ⟨⟨true, [txt "..", txt "..", txt "etc", txt "passwd"]⟩, [7]⟩).absolute
        = false ∧
     (∀ c ∈ (sanitized_name
          ⟨⟨true, [txt "..", txt "..", txt "etc", txt "passwd"]⟩, [7]⟩).components,
        c ≠ ['.', '.']) ∧
     ∀ q : Path,
       (unpack_entry (fun b => .ok b) (fun b => .ok b)
          ⟨⟨true, [txt "..", txt "..", txt "etc", txt "passwd"]⟩, [7]⟩
          ⟨false, [txt "a", txt "out"]⟩
          [(⟨false, [txt "a", txt "out"]⟩, .dir), (⟨false, [txt "a"]⟩, .dir)]).2.lookup q
         ≠ FS.lookup [(⟨false, [txt "a", txt "out"]⟩, .dir), (⟨false, [txt "a"]⟩, .dir)] q →
       (Path.mk false [txt "a", txt "out"]).isPrefixOf q) :=
  ⟨by decide,
   unpack_entry_stays_under_root (fun b => .ok b) (fun b => .ok b)
     ⟨⟨true, [txt "..", txt "..", txt "etc", txt "passwd"]⟩, [7]⟩
     ⟨false, [txt "a", txt "out"]⟩
     [(⟨false, [txt "a", txt "out"]⟩, .dir), (⟨false, [txt "a"]⟩, .dir)]
     (by decide)⟩

/-- C2 counterexample: the entry stored as the absolute path `/etc/passwd`
is not rejected by the entry processor — `sanitized_name` makes the path
relative before `create_folder_for_entry`'s absolute-parent check, so
`unpack_entry` succeeds (extracting to `r/etc/passwd`) instead of failing
with the absolute-entry-path error as the claim states. -/
theorem absolute_entry_not_rejected_counterexample :
    ((Path.mk true [txt "etc", txt "passwd"]).parent.map Path.absolute
        = some true) ∧
    (unpack_entry (fun b => .ok b) (fun b => .ok b)
        ⟨⟨true, [txt "etc", txt "passwd"]⟩, [7]⟩ ⟨false, [txt "r"]⟩
        [(⟨false, [txt "r"]⟩, .dir)]).1
      ≠ .error .packageEntryHasAbsolutePath ∧
    (unpack_entry (fun b => .ok b) (fun b => .ok b)
        ⟨⟨true, [txt "etc", txt "passwd"]⟩, [7]⟩ ⟨false, [txt "r"]⟩
        [(⟨false, [txt "r"]⟩, .dir)]).1
      = .ok () ∧
    (unpack_entry (fun b => .ok b) (fun b => .ok b)
        ⟨⟨true, [txt "etc", txt "passwd"]⟩, [7]⟩ ⟨false, [txt "r"]⟩
        [(⟨false, [txt "r"]⟩, .dir)]).2.lookup
        ⟨false, [txt "r", txt "etc", txt "passwd"]⟩
      = some (.file [7]) := by
  decide

/-- C2 amended: `create_folder_for_entry` does fail with the
absolute-entry-path error — before creating any directory — whenever the
path it is given has an absolute parent; but the entry processor sanitizes
the stored path first, so an entry whose stored path has an absolute
parent is not rejected: it is extracted under the output root, and no path
outside the output root is created or written for it. -/
theorem absolute_entry_amended :
    (∀ (td p : Path) (fs : FS) (pp : Path),
       p.parent = some pp → pp.absolute = true →
       create_folder_for_entry td p fs
         = (.error .packageEntryHasAbsolutePath, fs)) ∧
    (∀ (dec fmt : List Nat → Except UnpackError (List Nat))
       (e : ZipEntry) (root : Path) (fs : FS),
       e.rawName.absolute = true →
       (∀ r ∈ root.strictAncestors, fs.lookup r = some Node.dir) →
       ∀ q : Path,
         (unpack_entry dec fmt e root fs).2.lookup q ≠ fs.lookup q →
         root.isPrefixOf q) := by
  constructor
  · intro td p fs pp hpar habs
    unfold create_folder_for_entry
    rw [hpar]
    simp only [habs, if_true]
  · intro dec fmt e root fs _habs hroot q hq
    exact unpack_entry_change dec fmt e root fs q hroot hq

/-- C2 amended witness: the guard fires on the direct call with `/etc`
as the parent, and the absolute entry `/etc/passwd` stays under the root. -/
theorem absolute_entry_amended_witness :
    ((Path.mk true [txt "etc", txt "passwd"]).parent = some ⟨true, [txt "etc"]⟩ ∧
     (Path.mk true [txt "etc"]).absolute = true ∧
     create_folder_for_entry ⟨false, [txt "r"]⟩ ⟨true, [txt "etc", txt "passwd"]⟩
         [(⟨false, [txt "r"]⟩, .dir)]
       = (.error .packageEntryHasAbsolutePath, [(⟨false, [txt "r"]⟩, .dir)])) ∧
    ((⟨⟨true, [txt "etc", txt "passwd"]⟩, [7]⟩ : ZipEntry).rawName.absolute = true ∧
     ∀ q : Path,
       (unpack_entry (fun b => .ok b) (fun b => .ok b)
          ⟨⟨true, [txt "etc", txt "passwd"]⟩, [7]⟩ ⟨false, [txt "r"]⟩
          [(⟨false, [txt "r"]⟩, .dir)]).2.lookup q
         ≠ FS.lookup [(⟨false, [txt "r"]⟩, .dir)] q →
       (Path.mk false [txt "r"]).isPrefixOf q) :=
  ⟨⟨by decide, by decide,
    absolute_entry_amended.1 ⟨false, [txt "r"]⟩ ⟨true, [txt "etc", txt "passwd"]⟩
      [(⟨false, [txt "r"]⟩, .dir)] ⟨true, [txt "etc"]⟩ (by decide) (by decide)⟩,
   ⟨by decide,
    absolute_entry_amended.2 (fun b => .ok b) (fun b => .ok b)
      ⟨⟨true, [txt "etc", txt "passwd"]⟩, [7]⟩ ⟨false, [txt "r"]⟩
      [(⟨false, [txt "r"]⟩, .dir)] (by decide) (by decide)⟩⟩

end Slpkg
